import Mathlib

/-!
Shallow embedding of the Output repository's transcript/summarization core.

Python strings are modelled as lists of characters (`Str`); Python's
`str.strip`, `str.split`, `str.splitlines`, `"sep".join` are embedded as
executable Lean functions below.  Machine floats that only ever hold exact
decimal fractions (VTT timestamps, the 1.5**attempt backoff delays) are
modelled as rationals.
-/

namespace Output

/-- A Python string, modelled as a list of characters. -/
abbrev Str := List Char

/-- Convenience: turn a Lean string literal into the `Str` model. -/
def chars (s : String) : Str := s.toList

/-- The whitespace class stripped by Python's `str.strip()` and matched by
regex `\s` (ASCII fragment). -/
def pyWs (c : Char) : Bool :=
  c = ' ' || c = '\t' || c = '\n' || c = '\r' || c = '\x0b' || c = '\x0c'

/-- Leading-whitespace removal (`str.lstrip()`). -/
def trimLeft (s : Str) : Str := s.dropWhile pyWs

/-- Trailing-whitespace removal (`str.rstrip()`). -/
def trimRight (s : Str) : Str := (s.reverse.dropWhile pyWs).reverse

/-- Python `str.strip()`. -/
def pyStrip (s : Str) : Str := trimLeft (trimRight s)

/-- `sep.join(xs)` for a list of strings. -/
def joinSep (sep : Str) : List Str → Str
  | [] => []
  | [x] => x
  | x :: y :: rest => x ++ sep ++ joinSep sep (y :: rest)

/-- Locate the first occurrence of `sep` in `s`: returns the part before the
occurrence and the part after it. -/
def findSep (sep : Str) : Str → Option (Str × Str)
  | [] => none
  | c :: cs =>
    if sep.isPrefixOf (c :: cs) then some ([], (c :: cs).drop sep.length)
    else match findSep sep cs with
      | some (pre, post) => some (c :: pre, post)
      | none => none

/-- Fuelled worker for `pySplit`; each recursion step consumes at least one
character of `s` when `sep` is non-empty, so fuel `s.length` suffices. -/
def pySplitF (sep : Str) : Nat → Str → List Str
  | 0, s => [s]
  | fuel + 1, s =>
    match findSep sep s with
    | none => [s]
    | some pp => pp.1 :: pySplitF sep fuel pp.2

/-- Python `s.split(sep)` for a non-empty separator: split on every
non-overlapping occurrence, left to right, keeping empty pieces. -/
def pySplit (sep s : Str) : List Str := pySplitF sep s.length s

/-- Python `str.splitlines()` worker; `acc` holds the current line reversed and
`afterCR` records that the previous character was a `\r` (so a directly
following `\n` belongs to the same `\r\n` line break).  Splits at `\n`, `\r\n`
and lone `\r`; no trailing empty line is produced. -/
def splitLinesGo : Str → Str → Bool → List Str
  | [], acc, _ => if acc = [] then [] else [acc.reverse]
  | c :: cs, acc, afterCR =>
    if afterCR && c = '\n' then splitLinesGo cs acc false
    else if c = '\n' then acc.reverse :: splitLinesGo cs [] false
    else if c = '\r' then acc.reverse :: splitLinesGo cs [] true
    else splitLinesGo cs (c :: acc) false

/-- Python `str.splitlines()`. -/
def splitLines (s : Str) : List Str := splitLinesGo s [] false

namespace PipelinePlus

/-- Loop body of `chunk_text` (src/pipeline_plus.py, lines 23-32).  State:
the remaining lines, the current buffer `buf`, and the running `size`
(each buffered line counted as its length plus one).  Note that on overflow
the code appends `"\n".join(buf)` even when `buf` is empty. -/
def chunkGo (maxChars : Nat) : List Str → List Str → Nat → List Str
  | [], buf, _ => if buf = [] then [] else [joinSep ['\n'] buf]
  | l :: ls, buf, size =>
    if pyStrip l = [] then chunkGo maxChars ls buf size
    else if maxChars < size + (pyStrip l).length + 1 then
      joinSep ['\n'] buf :: chunkGo maxChars ls [pyStrip l] ((pyStrip l).length + 1)
    else chunkGo maxChars ls (buf ++ [pyStrip l]) (size + (pyStrip l).length + 1)

/-- `chunk_text` from src/pipeline_plus.py: accumulate stripped non-blank
lines while the running size stays within `maxChars`. -/
def chunk_text (s : Str) (maxChars : Nat) : List Str :=
  chunkGo maxChars (splitLines s) [] 0

end PipelinePlus

namespace Summarizer

/-- The sentence piece as `_chunk_text` rebuilds it: `(s + ". ").strip()`. -/
def mkS2 (s : Str) : Str := pyStrip (s ++ ['.', ' '])

/-- Inner sentence loop of `_chunk_text` (src/summarizer.py, lines 17-25):
fold over `p.split(". ")`, accumulating `s2 + " "` into `sent` while the
length test passes, flushing `sent.strip()` otherwise. -/
def sentLoop (maxChars : Nat) : List Str → Str → List Str
  | [], sent => if sent = [] then [] else [pyStrip sent]
  | s :: ss, sent =>
    if sent.length + (mkS2 s).length ≤ maxChars then
      sentLoop maxChars ss (sent ++ mkS2 s ++ [' '])
    else
      (if sent = [] then [] else [pyStrip sent]) ++ sentLoop maxChars ss (mkS2 s)

/-- Outer paragraph loop of `_chunk_text` (src/summarizer.py, lines 8-27):
fold over `text.split("\n")` with the current buffer `cur`. -/
def paraLoop (maxChars : Nat) : List Str → Str → List Str
  | [], cur => if cur = [] then [] else [cur]
  | p :: ps, cur =>
    if cur.length + p.length + 1 ≤ maxChars then
      paraLoop maxChars ps (cur ++ (if cur = [] then [] else ['\n']) ++ p)
    else
      (if cur = [] then [] else [cur]) ++
      (if p.length ≤ maxChars then paraLoop maxChars ps p
       else sentLoop maxChars (pySplit ['.', ' '] p) [] ++ paraLoop maxChars ps [])

/-- `_chunk_text` from src/summarizer.py. -/
def _chunk_text (text : Str) (maxChars : Nat) : List Str :=
  paraLoop maxChars (pySplit ['\n'] text) []

end Summarizer

open Summarizer

/-- Delete every newline character (the join character `chunk_text` adds). -/
def dropNl (s : Str) : Str := s.filter fun c => c ≠ '\n'

/-- The reference content of a text for the line-based chunker: its stripped
non-blank lines, in order, concatenated. -/
def contentChars (s : Str) : Str :=
  (((splitLines s).map pyStrip).filter fun l => l ≠ []).flatten

/-- The running size maintained by the chunk loop: each buffered line counts
as its length plus one (for the separating newline). -/
def bufSize (buf : List Str) : Nat := (buf.map fun p => p.length + 1).sum

/-- Whether `pat` occurs as a contiguous substring of `s`. -/
def containsSeq (pat : Str) : Str → Bool
  | [] => pat.isEmpty
  | c :: cs => pat.isPrefixOf (c :: cs) || containsSeq pat cs

/-- The character class of regex `[A-Za-z0-9_-]` (and of `[\w-]` for ASCII). -/
def isIdChar (c : Char) : Bool :=
  ('A' ≤ c && c ≤ 'Z') || ('a' ≤ c && c ≤ 'z') || ('0' ≤ c && c ≤ '9') || c = '_' || c = '-'

/-- Match the group `([A-Za-z0-9_-]{11})` anchored at the head of `s`. -/
def check11 (s : Str) : Option Str :=
  if (s.take 11).length = 11 && (s.take 11).all isIdChar then some (s.take 11) else none

/-- Try the alternation `(?:v=|be/|shorts/)` followed by the 11-character group
at the head of `s`.  The three markers begin with distinct characters, so at a
fixed position at most one alternative can match. -/
def matchMarkerAt (s : Str) : Option Str :=
  if (chars "v=").isPrefixOf s then check11 (s.drop 2)
  else if (chars "be/").isPrefixOf s then check11 (s.drop 3)
  else if (chars "shorts/").isPrefixOf s then check11 (s.drop 7)
  else none

/-- `re.search` for the id pattern: try each position, left to right. -/
def searchId : Str → Option Str
  | [] => none
  | c :: cs =>
    match matchMarkerAt (c :: cs) with
    | some t => some t
    | none => searchId cs

namespace AppYt

/-- `extract_video_id` from src/app/yt_utils.py lines 27-30 (the identical
function appears in src/transcript_pipeline.py lines 7-9): the first match of
`(?:v=|be/|shorts/)([A-Za-z0-9_-]{11})`, else the input returned unchanged. -/
def extract_video_id (url : Str) : Str :=
  match searchId url with
  | some t => t
  | none => url

end AppYt

/-- The suffix just after the first occurrence of any of the three markers
`v=`, `be/`, `shorts/` (this follows the claim's wording, for comparison
against the code's behaviour). -/
def firstMarkerRest : Str → Option Str
  | [] => none
  | c :: cs =>
    if (chars "v=").isPrefixOf (c :: cs) then some ((c :: cs).drop 2)
    else if (chars "be/").isPrefixOf (c :: cs) then some ((c :: cs).drop 3)
    else if (chars "shorts/").isPrefixOf (c :: cs) then some ((c :: cs).drop 7)
    else firstMarkerRest cs

/-- The resolver as the claim describes it: the 11-character token immediately
following the first marker occurrence, or the input itself. -/
def claimExtract (url : Str) : Str :=
  match firstMarkerRest url with
  | none => url
  | some rest =>
    match check11 rest with
    | some t => t
    | none => url

/-- The fields of `urllib.parse.urlparse` that src/pipeline_plus.py reads. -/
structure UrlParts where
  netloc : Str
  path : Str
  query : Str

/-- Characters legal in a URL scheme after the first letter. -/
def isSchemeChar (c : Char) : Bool := c.isAlphanum || c = '+' || c = '-' || c = '.'

/-- Strip a leading `scheme:` if the text before the first colon is a valid
scheme (a letter followed by letters, digits, `+`, `-`, `.`). -/
def splitScheme (s : Str) : Str :=
  match findSep [':'] s with
  | none => s
  | some (pre, post) =>
    match pre with
    | [] => s
    | c :: cs => if c.isAlpha && (c :: cs).all isSchemeChar then post else s

/-- Split off the network location: present only when the (scheme-stripped)
text begins with `//`, and extends to the next `/`, `?` or `#`. -/
def netlocSplit (s : Str) : Str × Str :=
  if (chars "//").isPrefixOf s then
    ((s.drop 2).takeWhile (fun c => !(c = '/' || c = '?' || c = '#')),
     (s.drop 2).dropWhile (fun c => !(c = '/' || c = '?' || c = '#')))
  else ([], s)

/-- Drop the fragment (everything from the first `#`). -/
def splitFragment (s : Str) : Str :=
  match findSep ['#'] s with
  | none => s
  | some (pre, _) => pre

/-- Model of `urllib.parse.urlparse` restricted to netloc, path and query
(percent-decoding is not modelled; the inputs of interest contain no escapes). -/
def urlparseModel (url : Str) : UrlParts :=
  match netlocSplit (splitScheme url) with
  | (netloc, rest) =>
    match findSep ['?'] (splitFragment rest) with
    | none => ⟨netloc, splitFragment rest, []⟩
    | some (pre, post) => ⟨netloc, pre, post⟩

/-- Model of `urllib.parse.parse_qs(q)["v"][0]` guarded by `"v" in qs`: the
first `v=value` pair with a non-empty value, if any. -/
def parseQsV (q : Str) : Option Str :=
  ((pySplit ['&'] q).filterMap fun pair =>
    match findSep ['='] pair with
    | none => none
    | some kv => if kv.1 = chars "v" ∧ kv.2 ≠ [] then some kv.2 else none).head?

/-- Python `path.strip("/")`. -/
def stripSlash (s : Str) : Str :=
  ((s.dropWhile fun c => c = '/').reverse.dropWhile fun c => c = '/').reverse

/-- Try the alternation `(?:v=|/embed/|youtu\.be/)` followed by `([\w-]{11})`
at the head of `s` (the fallback regex of src/pipeline_plus.py line 20). -/
def matchMarkerAt2 (s : Str) : Option Str :=
  if (chars "v=").isPrefixOf s then check11 (s.drop 2)
  else if (chars "/embed/").isPrefixOf s then check11 (s.drop 7)
  else if (chars "youtu.be/").isPrefixOf s then check11 (s.drop 9)
  else none

/-- `re.search` for the fallback pattern of src/pipeline_plus.py. -/
def searchId2 : Str → Option Str
  | [] => none
  | c :: cs =>
    match matchMarkerAt2 (c :: cs) with
    | some t => some t
    | none => searchId2 cs

namespace PipelinePlus

/-- `extract_video_id` from src/pipeline_plus.py lines 13-21: structured
parse first (short-link host, then `v` query parameter on a youtube.com
host), then the fallback regex; `None` when everything fails. -/
def extract_video_id (url : Str) : Option Str :=
  if (urlparseModel url).netloc = chars "youtu.be" then
    some (stripSlash (urlparseModel url).path)
  else
    match
      (if (chars "youtube.com").isSuffixOf (urlparseModel url).netloc then
        parseQsV (urlparseModel url).query
      else none) with
    | some v => some v
    | none => searchId2 url

end PipelinePlus

/-- Opaque transcript payload: the resolution chain never inspects segment
contents, only truthiness (non-emptiness) of the returned list. -/
abbrev Tr := List Nat

/-- A caption track as enumerated by `YouTubeTranscriptApi.list_transcripts`;
`fetched` is the outcome of calling `.fetch()` on it (`.error` = raised). -/
structure Track where
  is_generated : Bool
  fetched : Except Unit Tr

/-- The external collaborators consumed by `fetch_transcript_if_available`:
the per-language official-caption lookup, the track enumeration, and the
yt-dlp subtitle download strategy (which catches internally and returns
`None` on failure, so it is an `Option`).  `.error ()` models a raised
exception. -/
structure ChainEnv where
  getTranscript : Str → Except Unit Tr
  listTranscripts : Except Unit (List Track)
  ytdlp : Option Tr

/-- The pattern `t = api_call(...); if t: return t` with exceptions caught:
a successful non-empty result, or nothing. -/
def okNonEmpty : Except Unit Tr → Option Tr
  | .ok t => if t = [] then none else some t
  | .error _ => none

/-- Strategy 1: query the official captions for each language code in
priority order, returning the first non-empty result, each failure caught. -/
def firstLangHit (env : ChainEnv) : List Str → Option Tr
  | [] => none
  | c :: cs =>
    match okNonEmpty (env.getTranscript c) with
    | some t => some t
    | none => firstLangHit env cs

/-- Strategy 2 body: the first auto-generated track whose fetch yields a
non-empty transcript, per-track failures caught. -/
def firstAuto : List Track → Option Tr
  | [] => none
  | tr :: rest =>
    match (if tr.is_generated then okNonEmpty tr.fetched else none) with
    | some t => some t
    | none => firstAuto rest

namespace AppYt

/-- `fetch_transcript_if_available` from src/app/yt_utils.py lines 35-77:
language-priority official captions (defaulting to `["ko", "en"]` when the
given priority list is falsy), then the first auto-generated track (the
enumeration wrapped in its own try), then the yt-dlp VTT download.  Every
failure, including an exception from the track enumeration, still reaches the
yt-dlp strategy. -/
def fetch_transcript_if_available (env : ChainEnv) (langPriority : List Str) : Option Tr :=
  match firstLangHit env
      (if langPriority = [] then [chars "ko", chars "en"] else langPriority) with
  | some t => some t
  | none =>
    match (match env.listTranscripts with
           | .ok trs => firstAuto trs
           | .error _ => none) with
    | some t => some t
    | none => env.ytdlp

end AppYt

namespace TranscriptPipeline

/-- `fetch_transcript_if_available` from src/transcript_pipeline.py lines
12-41.  Here `list_transcripts` is called directly inside the function-wide
`try`: when it raises, the outer handler returns `None` and the yt-dlp
strategy (step 3, inside the same `try`) is never attempted.  The yt-dlp
result is additionally truthiness-checked (`if t: return t / return None`). -/
def fetch_transcript_if_available (env : ChainEnv) (langPriority : List Str) : Option Tr :=
  match firstLangHit env langPriority with
  | some t => some t
  | none =>
    match env.listTranscripts with
    | .error _ => none
    | .ok trs =>
      match firstAuto trs with
      | some t => some t
      | none =>
        match env.ytdlp with
        | some t => if t = [] then none else some t
        | none => none

end TranscriptPipeline

/-- The set of status codes `_gemini` retries: the literal tuple
`(500, 502, 503, 504, 429)` of src/pipeline_plus.py line 57. -/
def transientStatus (c : Nat) : Bool :=
  c = 500 || c = 502 || c = 503 || c = 504 || c = 429

/-- Whether `requests.Response.raise_for_status()` raises: any status in
`[400, 600)`. -/
def raisesForStatus (c : Nat) : Bool := 400 ≤ c && c < 600

/-- Outcome of a `_gemini` call: the JSON of the response of a given attempt,
or an HTTPError carrying a status. -/
inductive GemOutcome where
  | ok (attempt : Nat)
  | raised (status : Nat)
deriving DecidableEq

/-- The retry loop of `_gemini` (src/pipeline_plus.py lines 52-61).  `f a`
is the HTTP status returned by the POST of attempt `a`; `left` counts the
remaining iterations of `for attempt in range(5)`.  Returns the number of
POSTs issued, the list of backoff sleeps (`1.5 ** attempt`, exact rationals),
and the outcome; when the loop exhausts all five attempts the trailing
`r.raise_for_status()` raises for the last (transient, hence >= 400)
response. -/
def geminiGo (f : Nat → Nat) : Nat → Nat → Nat × List ℚ × GemOutcome
  | a, 0 => (0, [], .raised (f (a - 1)))
  | a, left + 1 =>
    if transientStatus (f a) then
      match geminiGo f (a + 1) left with
      | (reqs, ds, o) => (reqs + 1, (3 / 2 : ℚ) ^ a :: ds, o)
    else if raisesForStatus (f a) then (1, [], .raised (f a))
    else (1, [], .ok a)

/-- `_gemini` called with a fresh responder `f`. -/
def geminiRun (f : Nat → Nat) : Nat × List ℚ × GemOutcome := geminiGo f 0 5

/-- Outcome of `summarize_long_text` in the call-counting model. -/
inductive SummOutcome where
  | done (calls : Nat)
  | configError
deriving DecidableEq

/-- Call-counting model of `summarize_long_text` (src/summarizer.py lines
142-148), gemini provider path: the text is chunked at 6000 characters; a
single chunk goes to `_summarize_with_gemini`, which raises RuntimeError
before any remote call when the API key is absent and otherwise issues
exactly one generation call; any other chunk count goes to
`_summarize_chunks_with_gemini`, which issues one call per chunk plus one
merge call.  No branch inspects the text's length. -/
def summarize_long_text_calls (keyPresent : Bool) (text : Str) : SummOutcome :=
  if (Summarizer._chunk_text text 6000).length = 1 then
    if keyPresent then .done 1 else .configError
  else .done ((Summarizer._chunk_text text 6000).length + 1)

/-- Numeric value of a digit character. -/
def digitVal (c : Char) : Nat := c.toNat - '0'.toNat

/-- Numeric value of a digit string (most significant first). -/
def digitsVal (ds : Str) : Nat := ds.foldl (fun n c => 10 * n + digitVal c) 0

/-- Parse `\d+` (maximal munch) at the head of `s`. -/
def takeDigits1 (s : Str) : Option (Nat × Str) :=
  if s.takeWhile Char.isDigit = [] then none
  else some (digitsVal (s.takeWhile Char.isDigit), s.dropWhile Char.isDigit)

/-- Parse exactly `n` digits at the head of `s`. -/
def takeDigitsN (n : Nat) (s : Str) : Option (Nat × Str) :=
  if (s.take n).length = n && (s.take n).all Char.isDigit then
    some (digitsVal (s.take n), s.drop n)
  else none

/-- Parse the `\d{2}\.\d{3}` seconds group.  Timestamps are modelled in
integer milliseconds: the fraction has exactly three digits, so Python's
`float(s)` values are represented exactly by this rescaling. -/
def parseSecFrac (s : Str) : Option (Nat × Str) :=
  match takeDigitsN 2 s with
  | none => none
  | some (ss, r1) =>
    match r1 with
    | '.' :: r2 =>
      match takeDigitsN 3 r2 with
      | none => none
      | some (mmm, r3) => some (ss * 1000 + mmm, r3)
    | _ => none

/-- Parse `(\d+):(\d{2}):(\d{2}\.\d{3})` and convert with `to_sec_hms`
(in milliseconds). -/
def parseHmsTime (s : Str) : Option (Nat × Str) :=
  match takeDigits1 s with
  | none => none
  | some (h, r1) =>
    match r1 with
    | ':' :: r2 =>
      match takeDigitsN 2 r2 with
      | none => none
      | some (m, r3) =>
        match r3 with
        | ':' :: r4 =>
          match parseSecFrac r4 with
          | none => none
          | some (sec, r5) => some (h * 3600000 + m * 60000 + sec, r5)
        | _ => none
    | _ => none

/-- Parse `(\d{2}):(\d{2}\.\d{3})` and convert with `to_sec_ms`
(in milliseconds). -/
def parseMsTime (s : Str) : Option (Nat × Str) :=
  match takeDigitsN 2 s with
  | none => none
  | some (m, r1) =>
    match r1 with
    | ':' :: r2 =>
      match parseSecFrac r2 with
      | none => none
      | some (sec, r3) => some (m * 60000 + sec, r3)
    | _ => none

/-- The `ts_hms` regex of src/app/yt_utils.py line 125 under `.match`:
anchored at the start of the line, trailing text permitted. -/
def parseTsHms (l : Str) : Option (Nat × Nat) :=
  match parseHmsTime l with
  | none => none
  | some (st, r1) =>
    match r1.dropWhile pyWs with
    | '-' :: '-' :: '>' :: r2 =>
      match parseHmsTime (r2.dropWhile pyWs) with
      | none => none
      | some (en, _) => some (st, en)
    | _ => none

/-- The `ts_ms` regex of src/app/yt_utils.py line 126 under `.match`. -/
def parseTsMs (l : Str) : Option (Nat × Nat) :=
  match parseMsTime l with
  | none => none
  | some (st, r1) =>
    match r1.dropWhile pyWs with
    | '-' :: '-' :: '>' :: r2 =>
      match parseMsTime (r2.dropWhile pyWs) with
      | none => none
      | some (en, _) => some (st, en)
    | _ => none

/-- The timestamp-line test as parse_vtt applies it: `ts_hms.match` first,
`ts_ms.match` only when that fails. -/
def parseTsLine (l : Str) : Option (Nat × Nat) :=
  match parseTsHms l with
  | some r => some r
  | none => parseTsMs l

/-- A transcript segment as parse_vtt emits it; times in milliseconds. -/
structure Seg where
  startT : Nat
  endT : Nat
  text : Str
deriving DecidableEq

/-- `line.startswith("WEBVTT")`. -/
def isWebvttHeader (l : Str) : Bool := (chars "WEBVTT").isPrefixOf l

/-- The `flush()` closure of parse_vtt (src/app/yt_utils.py lines 143-153):
emit a segment only when text is buffered, a start time is set and the joined
text is non-blank; a missing end time defaults to start + 2.0. -/
def flushItems (buf : List Str) (st en : Option Nat) : List Seg :=
  match st with
  | none => []
  | some s =>
    if buf = [] then []
    else if pyStrip (joinSep [' '] buf) = [] then []
    else [⟨s, en.getD (s + 2000), pyStrip (joinSep [' '] buf)⟩]

/-- The line loop of parse_vtt (src/app/yt_utils.py lines 155-174): skip
blank and header lines, flush and restart on a timestamp line, otherwise
buffer the stripped line; segments are emitted in order. -/
def pvGo : List Str → List Str → Option Nat → Option Nat → List Seg
  | [], buf, st, en => flushItems buf st en
  | l :: ls, buf, st, en =>
    if l.isEmpty || isWebvttHeader l then pvGo ls buf st en
    else
      match parseTsHms l with
      | some se => flushItems buf st en ++ pvGo ls [] (some se.1) (some se.2)
      | none =>
        match parseTsMs l with
        | some se => flushItems buf st en ++ pvGo ls [] (some se.1) (some se.2)
        | none => pvGo ls (buf ++ [pyStrip l]) st en

/-- `parse_vtt` from src/app/yt_utils.py lines 134-175, over the file's
lines (the file read and newline-stripping are outside the model). -/
def parse_vtt (lines : List Str) : List Seg := pvGo lines [] none none

/-- A cue block of a subtitle file: its timestamp-range line and the text
lines that follow it. -/
structure Cue where
  tsLine : Str
  texts : List Str

/-- The lines of one cue block. -/
def renderCue (c : Cue) : List Str := c.tsLine :: c.texts

/-- The lines of a whole cue sequence. -/
def renderCues (cs : List Cue) : List Str := (cs.map renderCue).flatten

/-- A well-formed text line: non-blank, not a header, and not itself matching
either timestamp pattern. -/
def isTextLineB (l : Str) : Bool :=
  !l.isEmpty && !isWebvttHeader l && (parseTsHms l).isNone && (parseTsMs l).isNone &&
    !(pyStrip l).isEmpty

/-- A well-formed cue: a valid timestamp-range line (with an ordered range)
followed by at least one well-formed text line. -/
def cueOkB (c : Cue) : Bool :=
  (match parseTsLine c.tsLine with
   | some se => decide (se.1 ≤ se.2)
   | none => false) && !c.texts.isEmpty && c.texts.all isTextLineB

/-- The parsed (start, end) of a cue's timestamp line. -/
def cueTimes (c : Cue) : Nat × Nat := (parseTsLine c.tsLine).getD (0, 0)

/-- The segment a well-formed cue parses to. -/
def cueSeg (c : Cue) : Seg :=
  ⟨(cueTimes c).1, (cueTimes c).2, pyStrip (joinSep [' '] (c.texts.map pyStrip))⟩

/-- A trace of the scoped temporary directories a call creates and deletes
(each directory, with the files downloaded into it, identified by a number). -/
structure FsTrace where
  created : List Nat
  deleted : List Nat
deriving DecidableEq

/-- Identifier of the `caps_` temporary directory `fetch_captions_via_ytdlp`
makes (it receives the downloaded subtitle files). -/
def capsDir : Nat := 0

/-- Identifier of the `yt_` temporary directory of `run_pipeline`'s whisper
fallback (it receives the downloaded audio). -/
def whisperDir : Nat := 1

/-- External outcomes seen by `fetch_captions_via_ytdlp`: whether the yt-dlp
call raises, whether any `.vtt` files appear in the temp directory, and the
parsed transcript when they do. -/
structure CapsEnv where
  ydlRaises : Bool
  vttsFound : Bool
  parsed : Option Tr

/-- `fetch_captions_via_ytdlp` (src/app/yt_utils.py lines 82-195) as a
file-system trace: `tempfile.mkdtemp(prefix="caps_")` runs before the `try`,
the body returns `None` on a raised download, on no downloaded files or on an
empty parse, and the `finally` block is `pass` -- the cleanup call is
commented out, so nothing is deleted on any exit path. -/
def fetch_captions_via_ytdlp (env : CapsEnv) : Option Tr × FsTrace :=
  (if env.ydlRaises then none
   else if !env.vttsFound then none
   else env.parsed,
   ⟨[capsDir], []⟩)

/-- External outcomes seen by `run_pipeline`: the caught-internally result of
`fetch_transcript_text`, and whether the audio download or the whisper
transcription raises. -/
structure PipeEnv where
  transcriptText : Option Str
  downloadRaises : Bool
  whisperRaises : Bool

/-- Outcome of a `run_pipeline` call. -/
inductive PipeOutcome where
  | badUrl
  | ok
  | failed
deriving DecidableEq

namespace PipelinePlus

/-- The whisper fallback block of `run_pipeline` (src/pipeline_plus.py lines
137-144): `tmp = tempfile.mkdtemp(...)` then `try: download_audio;
transcribe_whisper finally: shutil.rmtree(tmp, ignore_errors=True)` -- the
temp directory is deleted on every exit path of the block. -/
def whisperBlock (env : PipeEnv) : PipeOutcome × FsTrace :=
  if env.downloadRaises then (.failed, ⟨[whisperDir], [whisperDir]⟩)
  else if env.whisperRaises then (.failed, ⟨[whisperDir], [whisperDir]⟩)
  else (.ok, ⟨[whisperDir], [whisperDir]⟩)

/-- `run_pipeline` (src/pipeline_plus.py lines 128-160) as a file-system
trace: a missing or empty video id raises ValueError before any file is
created; a usable transcript skips the whisper block; otherwise the whisper
block runs; the subsequent summarization calls create no files. -/
def run_pipeline (env : PipeEnv) (url : Str) : PipeOutcome × FsTrace :=
  match PipelinePlus.extract_video_id url with
  | none => (.badUrl, ⟨[], []⟩)
  | some vid =>
    if vid = [] then (.badUrl, ⟨[], []⟩)
    else
      match env.transcriptText with
      | some t => if pyStrip t = [] then whisperBlock env else (.ok, ⟨[], []⟩)
      | none => whisperBlock env

end PipelinePlus

lemma pyStrip_sublist (s : Str) : (pyStrip s).Sublist s := by
  have h0 : (s.reverse.dropWhile pyWs).Sublist s.reverse := List.dropWhile_sublist pyWs
  have h1 := h0.reverse
  rw [List.reverse_reverse] at h1
  have h2 : (pyStrip s).Sublist (trimRight s) := List.dropWhile_sublist pyWs
  exact h2.trans h1

lemma mem_of_mem_pyStrip {c : Char} {s : Str} (h : c ∈ pyStrip s) : c ∈ s :=
  (pyStrip_sublist s).mem h

lemma pyStrip_length_le (s : Str) : (pyStrip s).length ≤ s.length :=
  (pyStrip_sublist s).length_le

lemma splitLinesGo_no_nl (s : Str) : ∀ (acc : Str) (b : Bool),
    (∀ c ∈ acc, c ≠ '\n') → ∀ l ∈ splitLinesGo s acc b, ∀ c ∈ l, c ≠ '\n' := by
  induction s with
  | nil =>
    intro acc b hacc l hl c hc
    simp only [splitLinesGo] at hl
    by_cases hn : acc = []
    · simp [hn] at hl
    · simp [hn] at hl
      subst hl
      exact hacc c (by simpa using hc)
  | cons a as ih =>
    intro acc b hacc l hl c hc
    simp only [splitLinesGo] at hl
    by_cases h1 : b && a = '\n'
    · rw [if_pos h1] at hl
      exact ih acc false hacc l hl c hc
    · rw [if_neg h1] at hl
      by_cases h2 : a = '\n'
      · rw [if_pos h2] at hl
        rcases List.mem_cons.mp hl with h | h
        · subst h
          exact fun hcn => hacc c (by simpa using hc) hcn
        · exact ih [] false (by simp) l h c hc
      · rw [if_neg h2] at hl
        by_cases h3 : a = '\r'
        · rw [if_pos h3] at hl
          rcases List.mem_cons.mp hl with h | h
          · subst h
            exact fun hcn => hacc c (by simpa using hc) hcn
          · exact ih [] true (by simp) l h c hc
        · rw [if_neg h3] at hl
          refine ih (a :: acc) false ?_ l hl c hc
          intro x hx
          rcases List.mem_cons.mp hx with h | h
          · subst h; exact h2
          · exact hacc x h

lemma splitLines_no_nl (s : Str) : ∀ l ∈ splitLines s, ∀ c ∈ l, c ≠ '\n' :=
  splitLinesGo_no_nl s [] false (by simp)

lemma dropNl_eq_self {s : Str} (h : ∀ c ∈ s, c ≠ '\n') : dropNl s = s := by
  unfold dropNl
  exact List.filter_eq_self.mpr fun c hc => by simpa using h c hc

lemma dropNl_append (s t : Str) : dropNl (s ++ t) = dropNl s ++ dropNl t := by
  simp [dropNl]

lemma joinSep_nl_dropNl (buf : List Str) (h : ∀ p ∈ buf, ∀ c ∈ p, c ≠ '\n') :
    dropNl (joinSep ['\n'] buf) = buf.flatten := by
  induction buf with
  | nil => simp [joinSep, dropNl]
  | cons x rest ih =>
    cases rest with
    | nil =>
      simp only [joinSep, List.flatten]
      rw [dropNl_eq_self (h x (by simp))]
      simp
    | cons y rest2 =>
      simp only [joinSep] at *
      rw [dropNl_append, dropNl_append]
      rw [dropNl_eq_self (h x (by simp))]
      rw [ih fun p hp => h p (List.mem_cons_of_mem x hp)]
      simp [dropNl]

lemma joinSep_length (sep : Str) (buf : List Str) :
    (joinSep sep buf).length = (buf.map List.length).sum + sep.length * (buf.length - 1) := by
  induction buf with
  | nil => simp [joinSep]
  | cons x rest ih =>
    cases rest with
    | nil => simp [joinSep]
    | cons y rest2 =>
      simp only [joinSep] at *
      simp only [List.length_append, ih, List.map_cons, List.sum_cons, List.length_cons,
        Nat.add_sub_cancel]
      rw [Nat.mul_succ]
      ring

lemma chunkGo_content (m : Nat) (lines : List Str) :
    ∀ (buf : List Str) (size : Nat),
    (∀ l ∈ lines, ∀ c ∈ l, c ≠ '\n') → (∀ p ∈ buf, ∀ c ∈ p, c ≠ '\n') →
    dropNl (PipelinePlus.chunkGo m lines buf size).flatten =
      buf.flatten ++ ((lines.map pyStrip).filter fun l => l ≠ []).flatten := by
  induction lines with
  | nil =>
    intro buf size _ hbuf
    simp only [PipelinePlus.chunkGo]
    by_cases hb : buf = []
    · simp [hb, dropNl]
    · rw [if_neg hb]
      simp only [List.flatten_cons, List.flatten_nil, List.append_nil, List.map_nil,
        List.filter_nil]
      rw [joinSep_nl_dropNl buf hbuf]
  | cons l ls ih =>
    intro buf size hlines hbuf
    have hlnl : ∀ c ∈ pyStrip l, c ≠ '\n' :=
      fun c hc => hlines l (by simp) c (mem_of_mem_pyStrip hc)
    have hls : ∀ l2 ∈ ls, ∀ c ∈ l2, c ≠ '\n' :=
      fun l2 h2 => hlines l2 (List.mem_cons_of_mem l h2)
    simp only [PipelinePlus.chunkGo]
    by_cases h0 : pyStrip l = []
    · rw [if_pos h0, ih buf size hls hbuf]
      simp [h0]
    · rw [if_neg h0]
      by_cases h1 : m < size + (pyStrip l).length + 1
      · rw [if_pos h1]
        simp only [List.flatten_cons]
        rw [dropNl_append, joinSep_nl_dropNl buf hbuf]
        rw [ih [pyStrip l] ((pyStrip l).length + 1) hls (by simpa using hlnl)]
        simp [h0]
      · rw [if_neg h1]
        rw [ih (buf ++ [pyStrip l]) (size + (pyStrip l).length + 1) hls ?hb2]
        case hb2 =>
          intro p hp
          rcases List.mem_append.mp hp with h | h
          · exact hbuf p h
          · simp at h; subst h; exact hlnl
        simp [h0]

lemma bufSize_eq (buf : List Str) : bufSize buf = (buf.map List.length).sum + buf.length := by
  induction buf with
  | nil => simp [bufSize]
  | cons x rest ih =>
    simp only [bufSize, List.map_cons, List.sum_cons, List.length_cons] at *
    omega

lemma joinSep_nl_length_of_size (buf : List Str) (hne : buf ≠ []) :
    (joinSep ['\n'] buf).length + 1 = bufSize buf := by
  rw [joinSep_length, bufSize_eq]
  have h2 : 1 ≤ buf.length := by
    cases buf with
    | nil => exact absurd rfl hne
    | cons _ _ => simp
  simp only [List.length_singleton]
  omega

lemma chunkGo_sizes (m : Nat) (P : Str → Prop) (lines : List Str) :
    ∀ (buf : List Str) (size : Nat),
    (∀ l ∈ lines, P (pyStrip l)) → (∀ p ∈ buf, P p) →
    size = bufSize buf → (2 ≤ buf.length → size ≤ m) →
    ∀ c ∈ PipelinePlus.chunkGo m lines buf size, c.length ≤ m ∨ P c := by
  have emit : ∀ (buf : List Str), (∀ p ∈ buf, P p) →
      (2 ≤ buf.length → bufSize buf ≤ m) →
      (joinSep ['\n'] buf).length ≤ m ∨ P (joinSep ['\n'] buf) := by
    intro buf hP hbd
    match buf with
    | [] => left; simp [joinSep]
    | [p] => right; simpa [joinSep] using hP p (by simp)
    | p :: q :: rest =>
      left
      have h2 : 2 ≤ (p :: q :: rest).length := by
        simp only [List.length_cons]
        omega
      have := joinSep_nl_length_of_size (p :: q :: rest) (by simp)
      have hb := hbd h2
      omega
  induction lines with
  | nil =>
    intro buf size hlines hbuf hsz hbd c hc
    simp only [PipelinePlus.chunkGo] at hc
    by_cases hb : buf = []
    · simp [hb] at hc
    · rw [if_neg hb] at hc
      simp at hc
      subst hc
      exact emit buf hbuf (hsz ▸ hbd)
  | cons l ls ih =>
    intro buf size hlines hbuf hsz hbd c hc
    have hPl : P (pyStrip l) := hlines l (by simp)
    have hls : ∀ l2 ∈ ls, P (pyStrip l2) := fun l2 h2 => hlines l2 (List.mem_cons_of_mem l h2)
    simp only [PipelinePlus.chunkGo] at hc
    by_cases h0 : pyStrip l = []
    · rw [if_pos h0] at hc
      exact ih buf size hls hbuf hsz hbd c hc
    · rw [if_neg h0] at hc
      by_cases h1 : m < size + (pyStrip l).length + 1
      · rw [if_pos h1] at hc
        rcases List.mem_cons.mp hc with h | h
        · subst h
          exact emit buf hbuf (hsz ▸ hbd)
        · refine ih [pyStrip l] ((pyStrip l).length + 1) hls ?_ ?_ ?_ c h
          · intro p hp; simp at hp; subst hp; exact hPl
          · simp [bufSize]
          · intro h2; simp at h2
      · rw [if_neg h1] at hc
        refine ih (buf ++ [pyStrip l]) (size + (pyStrip l).length + 1) hls ?_ ?_ ?_ c hc
        · intro p hp
          rcases List.mem_append.mp hp with h | h
          · exact hbuf p h
          · simp at h; subst h; exact hPl
        · simp only [bufSize, List.map_append, List.sum_append, List.map_cons, List.sum_cons,
            List.map_nil, List.sum_nil]
          rw [hsz]
          simp only [bufSize]
          omega
        · intro _; omega

lemma joinSep_nl_ne_nil (buf : List Str) (hne : buf ≠ []) (hp : ∀ p ∈ buf, p ≠ []) :
    joinSep ['\n'] buf ≠ [] := by
  match buf with
  | [p] => simpa [joinSep] using hp p (by simp)
  | p :: q :: rest =>
    simp only [joinSep]
    intro h
    have := congrArg List.length h
    simp at this

lemma chunkGo_ne_nil (m : Nat) (lines : List Str) :
    ∀ (buf : List Str) (size : Nat), buf ≠ [] → (∀ p ∈ buf, p ≠ []) →
    ∀ c ∈ PipelinePlus.chunkGo m lines buf size, c ≠ [] := by
  induction lines with
  | nil =>
    intro buf size hne hp c hc
    simp only [PipelinePlus.chunkGo] at hc
    rw [if_neg hne] at hc
    simp at hc
    subst hc
    exact joinSep_nl_ne_nil buf hne hp
  | cons l ls ih =>
    intro buf size hne hp c hc
    simp only [PipelinePlus.chunkGo] at hc
    by_cases h0 : pyStrip l = []
    · rw [if_pos h0] at hc
      exact ih buf size hne hp c hc
    · rw [if_neg h0] at hc
      by_cases h1 : m < size + (pyStrip l).length + 1
      · rw [if_pos h1] at hc
        rcases List.mem_cons.mp hc with h | h
        · subst h
          exact joinSep_nl_ne_nil buf hne hp
        · exact ih [pyStrip l] _ (by simp) (by simpa using h0) c h
      · rw [if_neg h1] at hc
        refine ih (buf ++ [pyStrip l]) _ (by simp) ?_ c hc
        intro p hpm
        rcases List.mem_append.mp hpm with h | h
        · exact hp p h
        · simp at h; subst h; exact h0

lemma chunkGo_tail_ne_nil (m : Nat) (lines : List Str) :
    ∀ (size : Nat), ∀ c ∈ (PipelinePlus.chunkGo m lines [] size).tail, c ≠ [] := by
  induction lines with
  | nil =>
    intro size c hc
    simp [PipelinePlus.chunkGo] at hc
  | cons l ls ih =>
    intro size c hc
    simp only [PipelinePlus.chunkGo] at hc
    by_cases h0 : pyStrip l = []
    · rw [if_pos h0] at hc
      exact ih size c hc
    · rw [if_neg h0] at hc
      by_cases h1 : m < size + (pyStrip l).length + 1
      · rw [if_pos h1] at hc
        simp only [List.tail_cons] at hc
        exact chunkGo_ne_nil m ls [pyStrip l] ((pyStrip l).length + 1) (by simp)
          (by simpa using h0) c hc
      · rw [if_neg h1] at hc
        rw [List.nil_append] at hc
        exact chunkGo_ne_nil m ls [pyStrip l] (size + (pyStrip l).length + 1) (by simp)
          (by simpa using h0) c (List.mem_of_mem_tail hc)

lemma containsSeq_nil_of_ne (pat : Str) (h : pat ≠ []) : containsSeq pat [] = false := by
  cases pat with
  | nil => exact absurd rfl h
  | cons _ _ => simp [containsSeq]

lemma findSep_eq_none (sep : Str) (hsep : sep ≠ []) (s : Str) (h : findSep sep s = none) :
    containsSeq sep s = false := by
  induction s with
  | nil => exact containsSeq_nil_of_ne sep hsep
  | cons c cs ih =>
    simp only [findSep] at h
    by_cases hp : sep.isPrefixOf (c :: cs)
    · rw [if_pos hp] at h
      exact absurd h (by simp)
    · rw [if_neg hp] at h
      cases hfs : findSep sep cs with
      | some pp => rw [hfs] at h; simp at h
      | none =>
        simp only [containsSeq, Bool.or_eq_false_iff]
        exact ⟨Bool.eq_false_iff.mpr hp, ih hfs⟩

lemma findSep_eq_some (sep : Str) (hsep : sep ≠ []) (s : Str) :
    ∀ (pre post : Str), findSep sep s = some (pre, post) →
    containsSeq sep pre = false ∧ s = pre ++ sep ++ post := by
  induction s with
  | nil => intro pre post h; simp [findSep] at h
  | cons c cs ih =>
    intro pre post h
    simp only [findSep] at h
    by_cases hp : sep.isPrefixOf (c :: cs)
    · rw [if_pos hp] at h
      simp only [Option.some_inj, Prod.mk.injEq] at h
      obtain ⟨h1, h2⟩ := h
      subst h1
      subst h2
      refine ⟨containsSeq_nil_of_ne sep hsep, ?_⟩
      obtain ⟨rest, hr⟩ := List.isPrefixOf_iff_prefix.mp hp
      rw [← hr, List.nil_append, List.drop_left]
    · rw [if_neg hp] at h
      cases hfs : findSep sep cs with
      | none => rw [hfs] at h; simp at h
      | some pp =>
        rw [hfs] at h
        obtain ⟨pre', post'⟩ := pp
        simp only [Option.some_inj, Prod.mk.injEq] at h
        obtain ⟨h1, h2⟩ := h
        obtain ⟨hc1, hc2⟩ := ih pre' post' hfs
        subst h1
        subst h2
        constructor
        · simp only [containsSeq, Bool.or_eq_false_iff]
          refine ⟨?_, hc1⟩
          by_contra hq
          have hq1 : sep.isPrefixOf (c :: pre') = true := by
            revert hq
            cases sep.isPrefixOf (c :: pre') <;> simp
          have hq2 : sep <+: (c :: pre') := List.isPrefixOf_iff_prefix.mp hq1
          have hsub : (c :: pre') <+: (c :: cs) := by
            refine ⟨sep ++ post', ?_⟩
            rw [hc2]
            simp
          exact hp (List.isPrefixOf_iff_prefix.mpr (hq2.trans hsub))
        · rw [hc2]
          simp

lemma pySplitF_pieces (sep : Str) (hsep : sep ≠ []) :
    ∀ (fuel : Nat) (s : Str), s.length ≤ fuel →
    ∀ p ∈ pySplitF sep fuel s, containsSeq sep p = false := by
  intro fuel
  induction fuel with
  | zero =>
    intro s hs p hp
    have h0 : s = [] := List.length_eq_zero.mp (Nat.le_zero.mp hs)
    subst h0
    simp only [pySplitF, List.mem_singleton] at hp
    subst hp
    exact containsSeq_nil_of_ne sep hsep
  | succ fuel ih =>
    intro s hs p hp
    simp only [pySplitF] at hp
    cases hfs : findSep sep s with
    | none =>
      rw [hfs] at hp
      simp at hp
      subst hp
      exact findSep_eq_none sep hsep _ hfs
    | some pp =>
      rw [hfs] at hp
      obtain ⟨pre, post⟩ := pp
      obtain ⟨hc, hdecomp⟩ := findSep_eq_some sep hsep s pre post hfs
      rcases List.mem_cons.mp hp with h | h
      · subst h; exact hc
      · refine ih post ?_ p h
        have hlen := congrArg List.length hdecomp
        simp only [List.length_append] at hlen
        have hsl : 1 ≤ sep.length := by
          cases sep with
          | nil => exact absurd rfl hsep
          | cons _ _ => simp
        omega

lemma pySplit_pieces (sep s : Str) (hsep : sep ≠ []) :
    ∀ p ∈ pySplit sep s, containsSeq sep p = false :=
  pySplitF_pieces sep hsep s.length s le_rfl

lemma trimRight_append_nonws (s : Str) (c : Char) (hc : pyWs c = false) :
    trimRight (s ++ [c]) = s ++ [c] := by
  unfold trimRight
  rw [List.reverse_append]
  simp only [List.reverse_cons, List.reverse_nil, List.nil_append, List.singleton_append]
  rw [List.dropWhile_cons, hc]
  simp

lemma trimRight_append_space (s : Str) : trimRight (s ++ [' ']) = trimRight s := by
  unfold trimRight
  rw [List.reverse_append]
  simp only [List.reverse_cons, List.reverse_nil, List.nil_append, List.singleton_append]
  rw [List.dropWhile_cons]
  simp [pyWs]

lemma pyStrip_append_space (s : Str) : pyStrip (s ++ [' ']) = pyStrip s := by
  unfold pyStrip
  rw [trimRight_append_space]

lemma trimLeft_append_nonws (s : Str) (c : Char) (hc : pyWs c = false) :
    trimLeft (s ++ [c]) = trimLeft s ++ [c] := by
  unfold trimLeft
  rw [List.dropWhile_append]
  by_cases h : (s.dropWhile pyWs).isEmpty
  · rw [if_pos h]
    rw [List.isEmpty_iff] at h
    rw [h, List.nil_append, List.dropWhile_cons, hc]
    simp
  · rw [if_neg h]

lemma mkS2_eq (s : Str) : mkS2 s = trimLeft s ++ ['.'] := by
  unfold mkS2 pyStrip
  have h0 : s ++ ['.', ' '] = (s ++ ['.']) ++ [' '] := by simp
  rw [h0, trimRight_append_space, trimRight_append_nonws s '.' (by decide)]
  exact trimLeft_append_nonws s '.' (by decide)

lemma mkS2_ne_nil (s : Str) : mkS2 s ≠ [] := by
  rw [mkS2_eq]
  simp

lemma dot_mem_mkS2 (s : Str) : '.' ∈ mkS2 s := by
  rw [mkS2_eq]
  simp

lemma pyStrip_mkS2 (s : Str) : pyStrip (mkS2 s) = mkS2 s := by
  rw [mkS2_eq]
  unfold pyStrip
  rw [trimRight_append_nonws _ '.' (by decide)]
  unfold trimLeft
  rw [List.dropWhile_append]
  by_cases h : ((s.dropWhile pyWs).dropWhile pyWs).isEmpty
  · rw [if_pos h]
    rw [List.isEmpty_iff] at h
    have h2 : s.dropWhile pyWs = [] := by
      rw [List.dropWhile_idempotent] at h
      exact h
    rw [h2]
    decide
  · rw [if_neg h]
    rw [List.dropWhile_idempotent]

lemma containsSeq_dropWhile (pat : Str) (q : Char → Bool) (s : Str)
    (h : containsSeq pat s = false) : containsSeq pat (s.dropWhile q) = false := by
  induction s with
  | nil => simpa using h
  | cons c cs ih =>
    simp only [containsSeq, Bool.or_eq_false_iff] at h
    rw [List.dropWhile_cons]
    by_cases hq : q c
    · rw [if_pos hq]
      exact ih h.2
    · rw [if_neg hq]
      simp [containsSeq, h.1, h.2]

lemma containsSeq_ds_append_dot (s : Str) (h : containsSeq ['.', ' '] s = false) :
    containsSeq ['.', ' '] (s ++ ['.']) = false := by
  induction s with
  | nil => decide
  | cons c cs ih =>
    simp only [containsSeq, Bool.or_eq_false_iff] at h ⊢
    refine ⟨?_, ih h.2⟩
    cases hcs : cs with
    | nil => simp [List.isPrefixOf]
    | cons d ds =>
      have h1 := h.1
      rw [hcs] at h1
      simp only [List.cons_append, List.isPrefixOf, Bool.and_true] at h1 ⊢
      exact h1

lemma mkS2_noDS (s : Str) (h : containsSeq ['.', ' '] s = false) :
    containsSeq ['.', ' '] (mkS2 s) = false := by
  rw [mkS2_eq]
  exact containsSeq_ds_append_dot _ (containsSeq_dropWhile _ pyWs s h)

lemma pyStrip_ne_nil_of_mem (s : Str) (c : Char) (hc : c ∈ s) (hw : pyWs c = false) :
    pyStrip s ≠ [] := by
  intro h
  unfold pyStrip trimLeft at h
  have hall : ∀ x ∈ trimRight s, pyWs x := fun x hx => List.dropWhile_eq_nil_iff.mp h x hx
  have hc2 : c ∈ s.reverse := List.mem_reverse.mpr hc
  rw [← List.takeWhile_append_dropWhile pyWs s.reverse] at hc2
  rcases List.mem_append.mp hc2 with h1 | h1
  · have := List.mem_takeWhile_imp h1
    rw [hw] at this
    exact absurd this (by simp)
  · have hmem : c ∈ trimRight s := by
      unfold trimRight
      exact List.mem_reverse.mpr h1
    have := hall c hmem
    rw [hw] at this
    exact absurd this (by simp)

lemma sentLoop_chunks (m : Nat) (ss : List Str) :
    ∀ (sent : Str),
    (∀ s ∈ ss, containsSeq ['.', ' '] s = false) →
    (sent = [] ∨ (pyStrip sent).length ≤ m ∨
      ∃ s, containsSeq ['.', ' '] s = false ∧ sent = mkS2 s) →
    ∀ c ∈ Summarizer.sentLoop m ss sent,
      c.length ≤ m ∨ containsSeq ['.', ' '] c = false := by
  induction ss with
  | nil =>
    intro sent _ hinv c hc
    simp only [Summarizer.sentLoop] at hc
    by_cases hs : sent = []
    · simp [hs] at hc
    · rw [if_neg hs] at hc
      simp at hc
      subst hc
      rcases hinv with h | h | ⟨s, hcs, rfl⟩
      · exact absurd h hs
      · left; exact h
      · right
        rw [pyStrip_mkS2]
        exact mkS2_noDS s hcs
  | cons s ss ih =>
    intro sent hss hinv c hc
    have hcs : containsSeq ['.', ' '] s = false := hss s (by simp)
    have hss2 : ∀ x ∈ ss, containsSeq ['.', ' '] x = false :=
      fun x hx => hss x (List.mem_cons_of_mem s hx)
    simp only [Summarizer.sentLoop] at hc
    by_cases h1 : sent.length + (mkS2 s).length ≤ m
    · rw [if_pos h1] at hc
      refine ih (sent ++ mkS2 s ++ [' ']) hss2 ?_ c hc
      right; left
      rw [pyStrip_append_space]
      calc (pyStrip (sent ++ mkS2 s)).length ≤ (sent ++ mkS2 s).length :=
            pyStrip_length_le _
        _ = sent.length + (mkS2 s).length := by simp
        _ ≤ m := h1
    · rw [if_neg h1] at hc
      rcases List.mem_append.mp hc with h | h
      · by_cases hs : sent = []
        · simp [hs] at h
        · rw [if_neg hs] at h
          simp at h
          subst h
          rcases hinv with hI | hI | ⟨t, hct, rfl⟩
          · exact absurd hI hs
          · left; exact hI
          · right
            rw [pyStrip_mkS2]
            exact mkS2_noDS t hct
      · refine ih (mkS2 s) hss2 ?_ c h
        right; right
        exact ⟨s, hcs, rfl⟩

lemma sentLoop_ne_nil (m : Nat) (ss : List Str) :
    ∀ (sent : Str), (sent = [] ∨ '.' ∈ sent) →
    ∀ c ∈ Summarizer.sentLoop m ss sent, c ≠ [] := by
  induction ss with
  | nil =>
    intro sent hinv c hc
    simp only [Summarizer.sentLoop] at hc
    by_cases hs : sent = []
    · simp [hs] at hc
    · rw [if_neg hs] at hc
      simp at hc
      subst hc
      rcases hinv with h | h
      · exact absurd h hs
      · exact pyStrip_ne_nil_of_mem sent '.' h (by decide)
  | cons s ss ih =>
    intro sent hinv c hc
    simp only [Summarizer.sentLoop] at hc
    by_cases h1 : sent.length + (mkS2 s).length ≤ m
    · rw [if_pos h1] at hc
      refine ih (sent ++ mkS2 s ++ [' ']) ?_ c hc
      right
      exact List.mem_append.mpr (Or.inl (List.mem_append.mpr (Or.inr (dot_mem_mkS2 s))))
    · rw [if_neg h1] at hc
      rcases List.mem_append.mp hc with h | h
      · by_cases hs : sent = []
        · simp [hs] at h
        · rw [if_neg hs] at h
          simp at h
          subst h
          rcases hinv with hI | hI
          · exact absurd hI hs
          · exact pyStrip_ne_nil_of_mem sent '.' hI (by decide)
      · exact ih (mkS2 s) (Or.inr (dot_mem_mkS2 s)) c h

lemma paraLoop_chunks (m : Nat) (ps : List Str) :
    ∀ (cur : Str), cur.length ≤ m →
    ∀ c ∈ Summarizer.paraLoop m ps cur,
      c.length ≤ m ∨ containsSeq ['.', ' '] c = false := by
  induction ps with
  | nil =>
    intro cur hcur c hc
    simp only [Summarizer.paraLoop] at hc
    by_cases h : cur = []
    · simp [h] at hc
    · rw [if_neg h] at hc
      simp at hc
      subst hc
      left; exact hcur
  | cons p ps ih =>
    intro cur hcur c hc
    simp only [Summarizer.paraLoop] at hc
    by_cases h1 : cur.length + p.length + 1 ≤ m
    · rw [if_pos h1] at hc
      refine ih _ ?_ c hc
      by_cases h2 : cur = [] <;> simp [h2, List.length_append] <;> omega
    · rw [if_neg h1] at hc
      rcases List.mem_append.mp hc with h | h
      · by_cases h2 : cur = []
        · simp [h2] at h
        · rw [if_neg h2] at h
          simp at h
          subst h
          left; exact hcur
      · by_cases h3 : p.length ≤ m
        · rw [if_pos h3] at h
          exact ih p h3 c h
        · rw [if_neg h3] at h
          rcases List.mem_append.mp h with h4 | h4
          · exact sentLoop_chunks m (pySplit ['.', ' '] p) []
              (pySplit_pieces ['.', ' '] p (by simp)) (Or.inl rfl) c h4
          · exact ih [] (by simp) c h4

lemma paraLoop_ne_nil (m : Nat) (ps : List Str) :
    ∀ (cur : Str), ∀ c ∈ Summarizer.paraLoop m ps cur, c ≠ [] := by
  induction ps with
  | nil =>
    intro cur c hc
    simp only [Summarizer.paraLoop] at hc
    by_cases h : cur = []
    · simp [h] at hc
    · rw [if_neg h] at hc
      simp at hc
      subst hc
      exact h
  | cons p ps ih =>
    intro cur c hc
    simp only [Summarizer.paraLoop] at hc
    by_cases h1 : cur.length + p.length + 1 ≤ m
    · rw [if_pos h1] at hc
      exact ih _ c hc
    · rw [if_neg h1] at hc
      rcases List.mem_append.mp hc with h | h
      · by_cases h2 : cur = []
        · simp [h2] at h
        · rw [if_neg h2] at h
          simp at h
          subst h
          exact h2
      · by_cases h3 : p.length ≤ m
        · rw [if_pos h3] at h
          exact ih p c h
        · rw [if_neg h3] at h
          rcases List.mem_append.mp h with h4 | h4
          · exact sentLoop_ne_nil m (pySplit ['.', ' '] p) [] (Or.inl rfl) c h4
          · exact ih [] c h4

/-- C2 counterexample: `_chunk_text` is not lossless.  On input `"ab"` with
`maxChars = 1` the sentence-splitting path re-appends the `". "` delimiter to
the single sentence piece, so the only chunk is `"ab."`: a period that does not
occur anywhere in the original text has been added (and there is no join here
for it to be a join character of). -/
theorem c2_counterexample :
    Summarizer._chunk_text (chars "ab") 1 = [chars "ab."] ∧
    chars "ab." ≠ chars "ab" ∧ '.' ∉ chars "ab" :=
  ⟨by decide, by decide, by decide⟩

/-- C2 amended: for the line-based chunker `chunk_text` (src/pipeline_plus.py)
the losslessness claim holds exactly: concatenating the chunk contents in
order and deleting the newline join characters the chunker itself adds
reproduces the concatenation of the input's stripped non-blank lines. -/
theorem c2_theorem (s : Str) (m : Nat) :
    dropNl (PipelinePlus.chunk_text s m).flatten = contentChars s := by
  unfold PipelinePlus.chunk_text contentChars
  have h := chunkGo_content m (splitLines s) [] 0 (splitLines_no_nl s) (by simp)
  simpa using h

/-- C3 counterexample: on `"d. abc"` with `maxChars = 3`, `_chunk_text` emits
the chunk `"abc."` of length 4 > 3, yet the atomic sentence it came from is
the split piece `"abc"`, of length 3 ≤ 3 (the final period was added by the
chunker, not present in the input), so a chunk exceeds the bound without its
atomic sentence exceeding it. -/
theorem c3_counterexample :
    Summarizer._chunk_text (chars "d. abc") 3 = [chars "d.", chars "abc."] ∧
    3 < (chars "abc.").length ∧
    pySplit ['.', ' '] (chars "d. abc") = [chars "d", chars "abc"] ∧
    (chars "abc").length ≤ 3 :=
  ⟨by decide, by decide, by decide, by decide⟩

/-- C3 amended: every chunk of `_chunk_text` has length at most `maxChars`
except a chunk that is a single rebuilt sentence piece (it contains no `". "`
separator) whose length, including the re-appended period, exceeds the bound;
every chunk of `chunk_text` has length at most `maxChars` except a chunk that
is a single stripped input line that itself exceeds the bound. -/
theorem c3_theorem (text : Str) (m : Nat) :
    (∀ c ∈ Summarizer._chunk_text text m,
      c.length ≤ m ∨ (m < c.length ∧ containsSeq ['.', ' '] c = false)) ∧
    (∀ c ∈ PipelinePlus.chunk_text text m,
      c.length ≤ m ∨ (m < c.length ∧ ∃ l ∈ splitLines text, c = pyStrip l)) := by
  constructor
  · intro c hc
    have h := paraLoop_chunks m (pySplit ['\n'] text) [] (by simp) c hc
    rcases h with h | h
    · left; exact h
    · by_cases hle : c.length ≤ m
      · left; exact hle
      · right; exact ⟨by omega, h⟩
  · intro c hc
    have h := chunkGo_sizes m (fun c2 => ∃ l ∈ splitLines text, c2 = pyStrip l)
      (splitLines text) [] 0 (fun l hl => ⟨l, hl, rfl⟩) (by simp)
      (by simp [bufSize]) (by intro h2; simp at h2) c hc
    rcases h with h | h
    · left; exact h
    · by_cases hle : c.length ≤ m
      · left; exact hle
      · right; exact ⟨by omega, h⟩

/-- C3 witness: the amended theorem applied at concrete inputs -- the oversize
sentence chunk of the counterexample and an oversize single-line chunk of the
line-based chunker. -/
theorem c3_witness :
    ((chars "abc.").length ≤ 3 ∨
      (3 < (chars "abc.").length ∧ containsSeq ['.', ' '] (chars "abc.") = false)) ∧
    ((chars "abc").length ≤ 2 ∨
      (2 < (chars "abc").length ∧ ∃ l ∈ splitLines (chars "abc"), chars "abc" = pyStrip l)) :=
  ⟨(c3_theorem (chars "d. abc") 3).1 (chars "abc.") (by decide),
   (c3_theorem (chars "abc") 2).2 (chars "abc") (by decide)⟩

/-- C10 counterexample: when the first non-blank line already overflows the
bound, `chunk_text` flushes the still-empty buffer and emits an empty first
chunk. -/
theorem c10_counterexample :
    PipelinePlus.chunk_text (chars "abc") 2 = [[], chars "abc"] ∧
    [] ∈ PipelinePlus.chunk_text (chars "abc") 2 :=
  ⟨by decide, by decide⟩

/-- C10 amended: `_chunk_text` never emits an empty chunk, and `chunk_text`
never emits an empty chunk after the first position (the only possible empty
chunk is the leading flush of an empty buffer shown in the counterexample). -/
theorem c10_theorem (text : Str) (m : Nat) :
    (∀ c ∈ Summarizer._chunk_text text m, c ≠ []) ∧
    (∀ c ∈ (PipelinePlus.chunk_text text m).tail, c ≠ []) := by
  constructor
  · exact fun c hc => paraLoop_ne_nil m (pySplit ['\n'] text) [] c hc
  · exact fun c hc => chunkGo_tail_ne_nil m (splitLines text) 0 c hc

/-- C10 witness: the amended theorem applied at a concrete input. -/
theorem c10_witness : chars "hi" ≠ ([] : Str) :=
  (c10_theorem (chars "hi") 5).1 (chars "hi") (by decide)

lemma check11_spec {s t : Str} (h : check11 s = some t) :
    t.length = 11 ∧ t <+: s ∧ t.all isIdChar = true := by
  unfold check11 at h
  by_cases hc : ((s.take 11).length = 11 && (s.take 11).all isIdChar) = true
  · rw [if_pos hc] at h
    simp only [Option.some_inj] at h
    subst h
    simp only [Bool.and_eq_true, decide_eq_true_eq] at hc
    exact ⟨hc.1, List.take_prefix 11 s, hc.2⟩
  · rw [if_neg hc] at h
    exact absurd h (by simp)

lemma matchMarkerAt_spec {s t : Str} (h : matchMarkerAt s = some t) :
    t.length = 11 ∧ t <:+: s ∧ t.all isIdChar = true := by
  unfold matchMarkerAt at h
  have hdrop : ∀ k : Nat, check11 (s.drop k) = some t →
      t.length = 11 ∧ t <:+: s ∧ t.all isIdChar = true := by
    intro k hk
    obtain ⟨h1, h2, h3⟩ := check11_spec hk
    exact ⟨h1, h2.isInfix.trans (List.drop_suffix k s).isInfix, h3⟩
  by_cases p1 : (chars "v=").isPrefixOf s
  · rw [if_pos p1] at h; exact hdrop 2 h
  · rw [if_neg p1] at h
    by_cases p2 : (chars "be/").isPrefixOf s
    · rw [if_pos p2] at h; exact hdrop 3 h
    · rw [if_neg p2] at h
      by_cases p3 : (chars "shorts/").isPrefixOf s
      · rw [if_pos p3] at h; exact hdrop 7 h
      · rw [if_neg p3] at h; exact absurd h (by simp)

lemma searchId_spec (s : Str) : ∀ {t : Str}, searchId s = some t →
    t.length = 11 ∧ t <:+: s ∧ t.all isIdChar = true := by
  induction s with
  | nil => intro t h; simp [searchId] at h
  | cons c cs ih =>
    intro t h
    simp only [searchId] at h
    cases hm : matchMarkerAt (c :: cs) with
    | some u =>
      rw [hm] at h
      simp only [Option.some_inj] at h
      subst h
      exact matchMarkerAt_spec hm
    | none =>
      rw [hm] at h
      obtain ⟨h1, h2, h3⟩ := ih h
      exact ⟨h1, h2.trans (List.suffix_cons c cs).isInfix, h3⟩

/-- C9 counterexample: on `"v=##be/ABCDEFGHIJK"` the first marker occurrence
is `v=` at position 0, and the 11 characters after it are not all in the id
class, so by the claim the result should be the input itself; the code instead
skips ahead and returns the token after the later `be/` occurrence. -/
theorem c9_counterexample :
    AppYt.extract_video_id (chars "v=##be/ABCDEFGHIJK") = chars "ABCDEFGHIJK" ∧
    claimExtract (chars "v=##be/ABCDEFGHIJK") = chars "v=##be/ABCDEFGHIJK" ∧
    chars "ABCDEFGHIJK" ≠ chars "v=##be/ABCDEFGHIJK" :=
  ⟨by decide, by decide, by decide⟩

/-- C9 amended: the regex extractor returns either the input itself, or the
11-character id-class token at the leftmost position where a marker is
immediately followed by a valid token (a marker occurrence not followed by a
valid token is skipped); the result is always the whole input or an
11-character infix of it, and is never empty when the input is non-empty. -/
theorem c9_theorem (url : Str) :
    (AppYt.extract_video_id url = url ∨
      ((AppYt.extract_video_id url).length = 11 ∧
        AppYt.extract_video_id url <:+: url ∧
        (AppYt.extract_video_id url).all isIdChar = true)) ∧
    (url ≠ [] → AppYt.extract_video_id url ≠ []) := by
  unfold AppYt.extract_video_id
  cases hs : searchId url with
  | none => exact ⟨Or.inl rfl, fun h => h⟩
  | some t =>
    obtain ⟨h1, h2, h3⟩ := searchId_spec url hs
    refine ⟨Or.inr ⟨h1, h2, h3⟩, fun _ ht => ?_⟩
    have ht2 : t = [] := ht
    rw [ht2] at h1
    simp at h1

/-- C9 witness: the amended theorem applied at a concrete input. -/
theorem c9_witness :
    (AppYt.extract_video_id (chars "abc") = chars "abc" ∨
      ((AppYt.extract_video_id (chars "abc")).length = 11 ∧
        AppYt.extract_video_id (chars "abc") <:+: chars "abc" ∧
        (AppYt.extract_video_id (chars "abc")).all isIdChar = true)) ∧
    AppYt.extract_video_id (chars "abc") ≠ [] :=
  ⟨(c9_theorem (chars "abc")).1, (c9_theorem (chars "abc")).2 (by decide)⟩

/-- C6 counterexample: the urlparse-based resolver of src/pipeline_plus.py
returns `None` (not the original string) when nothing can be extracted. -/
theorem c6_counterexample :
    PipelinePlus.extract_video_id (chars "hello") = none := by decide

/-- C6 amended: the regex-based resolver (src/app/yt_utils.py and
src/transcript_pipeline.py) returns the original string unchanged whenever the
regex finds no match (and, being a total function, never fails); the
urlparse-based resolver of src/pipeline_plus.py instead returns `None` when
the host checks, the query lookup and the fallback regex all fail. -/
theorem c6_theorem (url url2 : Str) (h : searchId url = none)
    (h2 : (urlparseModel url2).netloc ≠ chars "youtu.be")
    (h3 : (chars "youtube.com").isSuffixOf (urlparseModel url2).netloc = false ∨
      parseQsV (urlparseModel url2).query = none)
    (h4 : searchId2 url2 = none) :
    AppYt.extract_video_id url = url ∧ PipelinePlus.extract_video_id url2 = none := by
  constructor
  · unfold AppYt.extract_video_id
    rw [h]
  · unfold PipelinePlus.extract_video_id
    rw [if_neg h2]
    rcases h3 with h3 | h3
    · rw [h3]
      simp only [Bool.false_eq_true, if_false]
      rw [h4]
    · by_cases hsuf : (chars "youtube.com").isSuffixOf (urlparseModel url2).netloc
      · rw [if_pos hsuf, h3, h4]
      · rw [if_neg hsuf, h4]

/-- C6 witness: the amended theorem applied at concrete inputs. -/
theorem c6_witness :
    AppYt.extract_video_id (chars "abcd") = chars "abcd" ∧
    PipelinePlus.extract_video_id (chars "hello") = none :=
  c6_theorem (chars "abcd") (chars "hello") (by decide) (by decide)
    (Or.inl (by decide)) (by decide)

lemma firstLangHit_append_some (env : ChainEnv) (p1 : List Str) (c : Str) (p2 : List Str)
    (t : Tr) (h1 : ∀ c2 ∈ p1, okNonEmpty (env.getTranscript c2) = none)
    (h2 : okNonEmpty (env.getTranscript c) = some t) :
    firstLangHit env (p1 ++ c :: p2) = some t := by
  induction p1 with
  | nil =>
    simp only [List.nil_append, firstLangHit, h2]
  | cons d ds ih =>
    simp only [List.cons_append, firstLangHit, h1 d (by simp)]
    exact ih fun c2 hc2 => h1 c2 (List.mem_cons_of_mem d hc2)

lemma firstLangHit_none (env : ChainEnv) (p : List Str)
    (h : ∀ c ∈ p, okNonEmpty (env.getTranscript c) = none) :
    firstLangHit env p = none := by
  induction p with
  | nil => rfl
  | cons d ds ih =>
    simp only [firstLangHit, h d (by simp)]
    exact ih fun c hc => h c (List.mem_cons_of_mem d hc)

/-- C1 counterexample: with every per-language caption lookup raising, the
track enumeration raising, and the yt-dlp strategy ready to return a
non-empty transcript, the src/transcript_pipeline.py variant of the chain
returns `None` without attempting the yt-dlp strategy (its exception handler
wraps the whole chain), while the src/app/yt_utils.py variant proceeds to
yt-dlp and succeeds.  So strategy 2's failure is not independently contained
in the transcript_pipeline variant. -/
theorem c1_counterexample :
    TranscriptPipeline.fetch_transcript_if_available
      ⟨fun _ => Except.error (), Except.error (), some [3]⟩ [chars "ko"] = none ∧
    AppYt.fetch_transcript_if_available
      ⟨fun _ => Except.error (), Except.error (), some [3]⟩ [chars "ko"] = some [3] ∧
    ([3] : Tr) ≠ [] :=
  ⟨rfl, rfl, by decide⟩

/-- C1 amended, proved for the src/app/yt_utils.py variant: the strategies
run in fixed priority order with each attempt's failure independently
contained.  (1) If `c` is the first language code whose official-caption
lookup yields a non-empty transcript `t`, the chain returns `t` -- whatever
the auto-caption and yt-dlp strategies would return.  (2) When every
official-caption lookup fails, a successful auto-generated track is returned.
(3) When both fail -- including when the track enumeration itself raises --
the chain returns the yt-dlp strategy's result. -/
theorem c1_theorem (env : ChainEnv) (prio : List Str) :
    (∀ p1 c p2 t,
      (if prio = [] then [chars "ko", chars "en"] else prio) = p1 ++ c :: p2 →
      (∀ c2 ∈ p1, okNonEmpty (env.getTranscript c2) = none) →
      okNonEmpty (env.getTranscript c) = some t →
      AppYt.fetch_transcript_if_available env prio = some t) ∧
    ((∀ c ∈ (if prio = [] then [chars "ko", chars "en"] else prio),
        okNonEmpty (env.getTranscript c) = none) →
      (∀ trs t, env.listTranscripts = Except.ok trs → firstAuto trs = some t →
        AppYt.fetch_transcript_if_available env prio = some t) ∧
      (∀ trs, env.listTranscripts = Except.ok trs → firstAuto trs = none →
        AppYt.fetch_transcript_if_available env prio = env.ytdlp) ∧
      (env.listTranscripts = Except.error () →
        AppYt.fetch_transcript_if_available env prio = env.ytdlp)) := by
  constructor
  · intro p1 c p2 t hsplit h1 h2
    unfold AppYt.fetch_transcript_if_available
    rw [hsplit, firstLangHit_append_some env p1 c p2 t h1 h2]
  · intro hall
    have hnone := firstLangHit_none env _ hall
    refine ⟨?_, ?_, ?_⟩
    · intro trs t hls hauto
      unfold AppYt.fetch_transcript_if_available
      simp only [hnone, hls, hauto]
    · intro trs hls hauto
      unfold AppYt.fetch_transcript_if_available
      simp only [hnone, hls, hauto]
    · intro hls
      unfold AppYt.fetch_transcript_if_available
      simp only [hnone, hls]

/-- C1 witness: a concrete environment where the first language code fails,
the second succeeds with transcript `[1]`, and the auto-caption and yt-dlp
strategies would also succeed (with `[2]` and `[3]`); the chain returns
strategy 1's result `[1]`. -/
theorem c1_witness :
    AppYt.fetch_transcript_if_available
      ⟨fun c => if c = chars "en" then Except.ok [1] else Except.error (),
       Except.ok [⟨true, Except.ok [2]⟩], some [3]⟩
      [chars "ko", chars "en"] = some [1] :=
  (c1_theorem
      ⟨fun c => if c = chars "en" then Except.ok [1] else Except.error (),
       Except.ok [⟨true, Except.ok [2]⟩], some [3]⟩
      [chars "ko", chars "en"]).1
    [chars "ko"] (chars "en") [] [1] (by decide) (by decide) (by decide)

/-- C4 counterexample.  (a) Status 501 is a server-error-class (5xx) response
but is not in the code's transient tuple, so the call fails immediately after
a single request with no backoff, contradicting the claimed retry of the 5xx
class.  (b) Under all-429 responses the successive backoff delays are
1, 3/2, 9/4, 27/8, 81/16 -- each 1.5 times the previous, not doubling.  The
failure is a raised requests HTTPError; no SummarizationFailure type exists
in the code. -/
theorem c4_counterexample :
    geminiRun (fun _ => 501) = (1, [], GemOutcome.raised 501) ∧
    (500 ≤ 501 ∧ 501 < 600) ∧
    geminiRun (fun _ => 429) =
      (5, [1, 3 / 2, 9 / 4, 27 / 8, 81 / 16], GemOutcome.raised 429) ∧
    (3 / 2 : ℚ) ≠ 2 * 1 :=
  ⟨by decide, by decide,
   by simp only [geminiRun, geminiGo]; norm_num [transientStatus],
   by norm_num⟩

/-- C4 amended: a response with status in {429, 500, 502, 503, 504} triggers
backoff with delay `1.5 ** attempt` (factor 1.5 per attempt, not doubling),
retried up to 5 attempts in total, after which the call raises an HTTP error
for the last response; a response with any other status in [400, 600) --
including 501, a server error -- raises immediately after one request with no
retry, and a success returns the response of the first non-transient
attempt. -/
theorem c4_theorem (f : Nat → Nat) :
    ((∀ a, a < 5 → transientStatus (f a) = true) →
      geminiRun f = (5, [1, 3 / 2, 9 / 4, 27 / 8, 81 / 16], GemOutcome.raised (f 4))) ∧
    (∀ k, k < 5 → (∀ a, a < k → transientStatus (f a) = true) →
      transientStatus (f k) = false →
      geminiRun f = (k + 1, (List.range k).map (fun a => (3 / 2 : ℚ) ^ a),
        if raisesForStatus (f k) = true then GemOutcome.raised (f k)
        else GemOutcome.ok k)) := by
  constructor
  · intro h
    have h0 := h 0 (by omega)
    have h1 := h 1 (by omega)
    have h2 := h 2 (by omega)
    have h3 := h 3 (by omega)
    have h4 := h 4 (by omega)
    simp only [geminiRun, geminiGo, h0, h1, h2, h3, h4, if_true]
    norm_num
  · intro k hk hbefore hneg
    interval_cases k
    · by_cases hr : raisesForStatus (f 0) = true <;>
        simp [geminiRun, geminiGo, hneg, hr]
    · have h0 := hbefore 0 (by omega)
      by_cases hr : raisesForStatus (f 1) = true <;>
        simp [geminiRun, geminiGo, h0, hneg, hr, List.range_succ]
    · have h0 := hbefore 0 (by omega)
      have h1 := hbefore 1 (by omega)
      by_cases hr : raisesForStatus (f 2) = true <;>
        simp [geminiRun, geminiGo, h0, h1, hneg, hr, List.range_succ]
    · have h0 := hbefore 0 (by omega)
      have h1 := hbefore 1 (by omega)
      have h2 := hbefore 2 (by omega)
      by_cases hr : raisesForStatus (f 3) = true <;>
        simp [geminiRun, geminiGo, h0, h1, h2, hneg, hr, List.range_succ]
    · have h0 := hbefore 0 (by omega)
      have h1 := hbefore 1 (by omega)
      have h2 := hbefore 2 (by omega)
      have h3 := hbefore 3 (by omega)
      by_cases hr : raisesForStatus (f 4) = true <;>
        simp [geminiRun, geminiGo, h0, h1, h2, h3, hneg, hr, List.range_succ]

/-- C4 witness: one transient 429 then a 200 -- two requests, one backoff
sleep of 1.5^0, success on attempt 1. -/
theorem c4_witness :
    geminiRun (fun a => if a = 0 then 429 else 200) =
      (1 + 1, (List.range 1).map (fun a => (3 / 2 : ℚ) ^ a),
        if raisesForStatus ((fun a => if a = 0 then 429 else 200) 1) = true then
          GemOutcome.raised ((fun a => if a = 0 then 429 else 200) 1)
        else GemOutcome.ok 1) :=
  (c4_theorem (fun a => if a = 0 then 429 else 200)).2 1 (by decide) (by decide) (by decide)

/-- C5 counterexample: the flattened text `"hi"` is far below any minimum
usable length, yet with an API key configured the pipeline issues one
generation call (single-chunk path) -- there is no InputTooShort failure and
no length check before the remote call. -/
theorem c5_counterexample :
    summarize_long_text_calls true (chars "hi") = SummOutcome.done 1 ∧
    (chars "hi").length < 10 :=
  ⟨by decide, by decide⟩

/-- C5 amended: `summarize_long_text` performs no minimum-length validation
and has no InputTooShort error; with the API key configured it issues at
least one text-generation call for every input text, however short. -/
theorem c5_theorem (text : Str) :
    ∃ n, 1 ≤ n ∧ summarize_long_text_calls true text = SummOutcome.done n := by
  unfold summarize_long_text_calls
  by_cases h : (Summarizer._chunk_text text 6000).length = 1
  · exact ⟨1, le_rfl, by rw [if_pos h, if_pos rfl]⟩
  · exact ⟨(Summarizer._chunk_text text 6000).length + 1, by omega, by rw [if_neg h]⟩

lemma trimLeft_head_not_ws : ∀ (s : Str) {c : Char} {cs : Str},
    trimLeft s = c :: cs → pyWs c = false := by
  intro s
  induction s with
  | nil => intro c cs h; simp [trimLeft] at h
  | cons a as ih =>
    intro c cs h
    unfold trimLeft at h
    rw [List.dropWhile_cons] at h
    by_cases ha : pyWs a = true
    · rw [if_pos ha] at h
      exact ih h
    · rw [if_neg ha] at h
      injection h with h1 _
      subst h1
      exact Bool.eq_false_iff.mpr ha

lemma pyStrip_exists_not_ws (t : Str) (h : pyStrip t ≠ []) :
    ∃ c ∈ pyStrip t, pyWs c = false := by
  cases hp : pyStrip t with
  | nil => exact absurd hp h
  | cons c cs =>
    refine ⟨c, by simp, ?_⟩
    exact trimLeft_head_not_ws (trimRight t) hp

lemma mem_joinSep (sep : Str) (xs : List Str) (x : Str) (hx : x ∈ xs) (c : Char)
    (hc : c ∈ x) : c ∈ joinSep sep xs := by
  induction xs with
  | nil => simp at hx
  | cons y ys ih =>
    cases ys with
    | nil =>
      simp at hx
      subst hx
      simpa [joinSep] using hc
    | cons z zs =>
      simp only [joinSep, List.mem_append]
      rcases List.mem_cons.mp hx with h | h
      · subst h
        exact Or.inl (Or.inl hc)
      · exact Or.inr (ih h)

lemma flush_text_ne (texts : List Str) (hne : texts ≠ [])
    (hall : ∀ t ∈ texts, pyStrip t ≠ []) :
    pyStrip (joinSep [' '] (texts.map pyStrip)) ≠ [] := by
  cases texts with
  | nil => exact absurd rfl hne
  | cons t0 ts =>
    obtain ⟨c, hc, hw⟩ := pyStrip_exists_not_ws t0 (hall t0 (by simp))
    apply pyStrip_ne_nil_of_mem _ c _ hw
    exact mem_joinSep [' '] ((t0 :: ts).map pyStrip) (pyStrip t0) (by simp) c hc

lemma cueOkB_ts {c : Cue} (h : cueOkB c = true) :
    ∃ se, parseTsLine c.tsLine = some se ∧ se.1 ≤ se.2 := by
  unfold cueOkB at h
  cases hp : parseTsLine c.tsLine with
  | none => rw [hp] at h; simp at h
  | some se =>
    rw [hp] at h
    simp only [Bool.and_eq_true, decide_eq_true_eq] at h
    exact ⟨se, rfl, h.1.1⟩

lemma cueOkB_texts {c : Cue} (h : cueOkB c = true) :
    c.texts ≠ [] ∧ ∀ t ∈ c.texts, isTextLineB t = true := by
  unfold cueOkB at h
  simp only [Bool.and_eq_true, Bool.not_eq_true'] at h
  constructor
  · intro hn
    rw [hn] at h
    simp at h
  · intro t ht
    have := h.2
    rw [List.all_eq_true] at this
    exact this t ht

lemma isTextLineB_spec {t : Str} (h : isTextLineB t = true) :
    t.isEmpty = false ∧ isWebvttHeader t = false ∧ parseTsHms t = none ∧
      parseTsMs t = none ∧ pyStrip t ≠ [] := by
  unfold isTextLineB at h
  simp only [Bool.and_eq_true, Bool.not_eq_true'] at h
  obtain ⟨⟨⟨⟨h1, h2⟩, h3⟩, h4⟩, h5⟩ := h
  refine ⟨h1, h2, Option.isNone_iff_eq_none.mp h3, Option.isNone_iff_eq_none.mp h4, ?_⟩
  intro hh
  rw [hh] at h5
  simp at h5

lemma parseTsLine_head_digit {l : Str} {se : Nat × Nat} (h : parseTsLine l = some se) :
    ∃ d ds, l = d :: ds ∧ d.isDigit = true := by
  cases l with
  | nil =>
    rw [show parseTsLine [] = none from rfl] at h
    exact absurd h (by simp)
  | cons d ds =>
    refine ⟨d, ds, rfl, ?_⟩
    by_cases hd : d.isDigit = true
    · exact hd
    · exfalso
      have hd2 : d.isDigit = false := Bool.eq_false_iff.mpr hd
      have h1 : parseTsHms (d :: ds) = none := by
        unfold parseTsHms parseHmsTime takeDigits1
        rw [List.takeWhile_cons, hd2]
        simp
      have h2 : parseTsMs (d :: ds) = none := by
        unfold parseTsMs parseMsTime takeDigitsN
        cases ds <;> simp [hd2]
      unfold parseTsLine at h
      rw [h1, h2] at h
      exact absurd h (by simp)

lemma header_head_W {l : Str} (h : isWebvttHeader l = true) : ∃ cs, l = 'W' :: cs := by
  unfold isWebvttHeader at h
  obtain ⟨r, hr⟩ := List.isPrefixOf_iff_prefix.mp h
  exact ⟨chars "EBVTT" ++ r, by rw [← hr]; rfl⟩

lemma pvGo_texts (texts : List Str) (hall : ∀ t ∈ texts, isTextLineB t = true) :
    ∀ (rest buf : List Str) (st en : Option Nat),
    pvGo (texts ++ rest) buf st en = pvGo rest (buf ++ texts.map pyStrip) st en := by
  induction texts with
  | nil => intro rest buf st en; simp
  | cons t ts ih =>
    intro rest buf st en
    obtain ⟨h1, h2, h3, h4, _⟩ := isTextLineB_spec (hall t (by simp))
    simp only [List.cons_append, pvGo, h1, h2, Bool.or_self, Bool.false_eq_true, if_false,
      h3, h4, List.append_eq]
    rw [ih (fun x hx => hall x (List.mem_cons_of_mem t hx)) rest (buf ++ [pyStrip t]) st en]
    rw [List.append_assoc]
    rfl

lemma flush_cue (c : Cue) (hok : cueOkB c = true) (s e : Nat) :
    flushItems (c.texts.map pyStrip) (some s) (some e) =
      [⟨s, e, pyStrip (joinSep [' '] (c.texts.map pyStrip))⟩] := by
  obtain ⟨hne, hall⟩ := cueOkB_texts hok
  have hb1 : ¬(c.texts.map pyStrip = []) := fun hmap => hne (List.map_eq_nil_iff.mp hmap)
  have hb2 : ¬(pyStrip (joinSep [' '] (c.texts.map pyStrip)) = []) :=
    flush_text_ne c.texts hne fun t ht => (isTextLineB_spec (hall t ht)).2.2.2.2
  simp [flushItems, hb1, hb2]

lemma pvGo_cue (c : Cue) (hok : cueOkB c = true) (rest buf : List Str)
    (st en : Option Nat) :
    pvGo (renderCue c ++ rest) buf st en =
      flushItems buf st en ++
        pvGo rest (c.texts.map pyStrip) (some (cueTimes c).1) (some (cueTimes c).2) := by
  obtain ⟨se, hts, _⟩ := cueOkB_ts hok
  obtain ⟨d, ds, hl, hdig⟩ := parseTsLine_head_digit hts
  have hcond : (c.tsLine.isEmpty || isWebvttHeader c.tsLine) = false := by
    rw [hl]
    simp only [List.isEmpty_cons, Bool.false_or]
    cases hW : isWebvttHeader (d :: ds)
    · rfl
    · obtain ⟨cs2, hcs2⟩ := header_head_W hW
      injection hcs2 with hd _
      rw [hd] at hdig
      exact absurd hdig (by decide)
  have hT : cueTimes c = se := by
    unfold cueTimes
    rw [hts]
    rfl
  have htexts := (cueOkB_texts hok).2
  have hrest : ∀ s1 s2 : Nat, pvGo (c.texts ++ rest) [] (some s1) (some s2) =
      pvGo rest (c.texts.map pyStrip) (some s1) (some s2) := by
    intro s1 s2
    have h := pvGo_texts c.texts htexts rest [] (some s1) (some s2)
    simpa using h
  simp only [renderCue, List.cons_append, pvGo, hcond, Bool.false_eq_true, if_false]
  cases hh : parseTsHms c.tsLine with
  | some se2 =>
    have he : se2 = se := by
      have h2 : parseTsLine c.tsLine = some se2 := by
        unfold parseTsLine
        rw [hh]
      rw [h2] at hts
      exact Option.some_inj.mp hts
    rw [hT, ← he]
    show flushItems buf st en ++ pvGo (c.texts ++ rest) [] (some se2.1) (some se2.2) =
      flushItems buf st en ++ pvGo rest (c.texts.map pyStrip) (some se2.1) (some se2.2)
    rw [hrest se2.1 se2.2]
  | none =>
    cases hm : parseTsMs c.tsLine with
    | some se3 =>
      have he : se3 = se := by
        have h2 : parseTsLine c.tsLine = some se3 := by
          unfold parseTsLine
          rw [hh]
          exact hm
        rw [h2] at hts
        exact Option.some_inj.mp hts
      rw [hT, ← he]
      show flushItems buf st en ++ pvGo (c.texts ++ rest) [] (some se3.1) (some se3.2) =
        flushItems buf st en ++ pvGo rest (c.texts.map pyStrip) (some se3.1) (some se3.2)
      rw [hrest se3.1 se3.2]
    | none =>
      exfalso
      have h2 : parseTsLine c.tsLine = none := by
        unfold parseTsLine
        rw [hh]
        exact hm
      rw [h2] at hts
      exact absurd hts (by simp)

lemma pvGo_renderCues (cs : List Cue) (hall : ∀ c ∈ cs, cueOkB c = true) :
    ∀ (c0 : Cue), cueOkB c0 = true →
    pvGo (renderCues cs) (c0.texts.map pyStrip)
        (some (cueTimes c0).1) (some (cueTimes c0).2) =
      cueSeg c0 :: cs.map cueSeg := by
  induction cs with
  | nil =>
    intro c0 h0
    show flushItems (c0.texts.map pyStrip) (some (cueTimes c0).1) (some (cueTimes c0).2) = _
    rw [flush_cue c0 h0]
    rfl
  | cons c cs2 ih =>
    intro c0 h0
    have hrc : renderCues (c :: cs2) = renderCue c ++ renderCues cs2 := by
      simp [renderCues]
    rw [hrc, pvGo_cue c (hall c (by simp)), flush_cue c0 h0]
    rw [ih (fun x hx => hall x (List.mem_cons_of_mem c hx)) c (hall c (by simp))]
    rfl

/-- C7: for any input consisting of N well-formed cues (a valid ordered
timestamp-range line followed by non-empty text lines that are not themselves
timestamp or header lines), `parse_vtt` returns exactly the N corresponding
segments, in file order, and every returned segment has end >= start.
Timestamps are in exact integer milliseconds. -/
theorem c7_theorem (cs : List Cue) (hall : ∀ c ∈ cs, cueOkB c = true) :
    parse_vtt (renderCues cs) = cs.map cueSeg ∧
    ∀ sg ∈ parse_vtt (renderCues cs), sg.startT ≤ sg.endT := by
  have hmain : parse_vtt (renderCues cs) = cs.map cueSeg := by
    cases cs with
    | nil => rfl
    | cons c cs2 =>
      unfold parse_vtt
      have hrc : renderCues (c :: cs2) = renderCue c ++ renderCues cs2 := by
        simp [renderCues]
      rw [hrc, pvGo_cue c (hall c (by simp))]
      rw [show flushItems [] none none = [] from rfl]
      rw [pvGo_renderCues cs2 (fun x hx => hall x (List.mem_cons_of_mem c hx)) c
        (hall c (by simp))]
      rfl
  refine ⟨hmain, ?_⟩
  intro sg hsg
  rw [hmain] at hsg
  obtain ⟨c, hc, rfl⟩ := List.mem_map.mp hsg
  obtain ⟨se, hts, hle⟩ := cueOkB_ts (hall c hc)
  have hT : cueTimes c = se := by
    unfold cueTimes
    rw [hts]
    rfl
  show (cueTimes c).1 ≤ (cueTimes c).2
  rw [hT]
  exact hle

/-- C7 witness: the spec's own two-cue fixture, parsed to exactly two ordered
segments with times 1.0-3.0 and 3.0-5.0 seconds (1000-3000 and 3000-5000
milliseconds). -/
theorem c7_witness :
    parse_vtt (renderCues
      [⟨chars "0:00:01.000 --> 0:00:03.000", [chars "Hello world"]⟩,
       ⟨chars "0:00:03.000 --> 0:00:05.000", [chars "Second line"]⟩]) =
      [⟨1000, 3000, chars "Hello world"⟩, ⟨3000, 5000, chars "Second line"⟩] :=
  ((c7_theorem
      [⟨chars "0:00:01.000 --> 0:00:03.000", [chars "Hello world"]⟩,
       ⟨chars "0:00:03.000 --> 0:00:05.000", [chars "Second line"]⟩]
      (by decide)).1).trans (by decide)

/-- C8 counterexample: `fetch_captions_via_ytdlp` creates its `caps_` temp
directory (holding the downloaded subtitle files) and deletes nothing -- on a
successful path and on a failed-download path alike; its cleanup line is
commented out (src/app/yt_utils.py lines 192-195). -/
theorem c8_counterexample :
    (fetch_captions_via_ytdlp ⟨false, true, some [7]⟩).2 = ⟨[capsDir], []⟩ ∧
    (fetch_captions_via_ytdlp ⟨true, false, none⟩).2 = ⟨[capsDir], []⟩ ∧
    ([capsDir] : List Nat) ≠ [] :=
  ⟨rfl, rfl, by decide⟩

/-- C8 amended: `run_pipeline` deletes every temporary directory it creates
on every exit path (the whisper temp directory is removed by the `finally`
whether the download raises, the transcription raises, or everything
succeeds, and no other path creates files); but `fetch_captions_via_ytdlp`
deletes nothing on any path, so the claim fails for the downloaded-subtitle
artifacts. -/
theorem c8_theorem (env : PipeEnv) (url : Str) :
    (PipelinePlus.run_pipeline env url).2.deleted =
      (PipelinePlus.run_pipeline env url).2.created ∧
    ∀ envC : CapsEnv, (fetch_captions_via_ytdlp envC).2.deleted = [] := by
  have hw : ∀ e : PipeEnv,
      ((PipelinePlus.whisperBlock e).2).deleted = ((PipelinePlus.whisperBlock e).2).created := by
    intro e
    unfold PipelinePlus.whisperBlock
    by_cases h1 : e.downloadRaises = true <;> by_cases h2 : e.whisperRaises = true <;>
      simp [h1, h2]
  refine ⟨?_, fun envC => rfl⟩
  unfold PipelinePlus.run_pipeline
  split
  · rfl
  · split
    · rfl
    · split
      · split
        · exact hw env
        · rfl
      · exact hw env

end Output
